import Mathlib

/-!
Verification of the fixed-point `FromStr` conversion core of substrate-fixed.

The definitions below are a shallow embedding of `src/from_str.rs` and
`src/sealed_fixed.rs`.  Machine integers (`u8`, `u16`, `u64`, `u128`) are
modelled as `Nat` with an explicit `% 2^w` wherever the Rust operation can
wrap or truncate (`<<`, wrapping `+`, `wrapping_mul`, `as` casts); Rust
string slices become `List Char`; fallible operations return `Option` or
`Except`.
-/

namespace FixedFromStr

/-- Error kinds of `ParseFixedError` (from_str.rs, `enum ParseErrorKind`). -/
inductive ParseErrorKind where
  | invalidDigit
  | noDigits
  | tooManyPoints
  | overflow
deriving DecidableEq, Repr

/-- Result of the tokenizer (from_str.rs, `struct Parse`): the sign flag and
the integer / fraction digit spans.  Rust keeps byte ranges into the input;
the embedding carries the spanned characters themselves. -/
structure Parse where
  neg : Bool
  int : List Char
  frac : List Char
deriving DecidableEq, Repr

/-- Scanner state of `parse` (from_str.rs lines 277-331): the four mutable
booleans plus the accumulated spans. -/
structure ScanState where
  hasSign : Bool
  isNegative : Bool
  hasDigits : Bool
  hasPoint : Bool
  int : List Char
  frac : List Char
deriving DecidableEq, Repr

/-- Initial scanner state (all flags false, both spans empty). -/
def scanInit : ScanState := ⟨false, false, false, false, [], []⟩

/-- Digit legality per base, from the match arms of `parse`:
`(2, '0'..='1') | (8, '0'..='7') | (10, '0'..='9') | (16, '0'..='9') |
(16, 'a'..='f') | (16, 'A'..='F')`. -/
def isDigitFor (radix : Nat) (c : Char) : Bool :=
  (radix == 2 && (decide ('0' ≤ c) && decide (c ≤ '1'))) ||
  (radix == 8 && (decide ('0' ≤ c) && decide (c ≤ '7'))) ||
  (radix == 10 && (decide ('0' ≤ c) && decide (c ≤ '9'))) ||
  (radix == 16 && ((decide ('0' ≤ c) && decide (c ≤ '9')) ||
    (decide ('a' ≤ c) && decide (c ≤ 'f')) ||
    (decide ('A' ≤ c) && decide (c ≤ 'F'))))

/-- One step of the tokenizer loop (from_str.rs lines 284-327), processing a
single character of the input. -/
def scanStep (canBeNeg : Bool) (radix : Nat) (st : ScanState) (c : Char) :
    Except ParseErrorKind ScanState :=
  if c == '.' then
    if st.hasPoint then .error .tooManyPoints
    else .ok { st with hasDigits := false, hasPoint := true }
  else if c == '+' then
    if st.hasPoint || st.hasSign || st.hasDigits then .error .invalidDigit
    else .ok { st with hasSign := true }
  else if c == '-' then
    if st.hasPoint || st.hasSign || st.hasDigits || !canBeNeg then
      .error .invalidDigit
    else .ok { st with hasSign := true, isNegative := true }
  else if isDigitFor radix c then
    .ok { st with hasDigits := true,
                  int := if st.hasPoint then st.int else st.int ++ [c],
                  frac := if st.hasPoint then st.frac ++ [c] else st.frac }
  else .error .invalidDigit

/-- The tokenizer loop `for (index, c) in s.char_indices()`, stopping at the
first error. -/
def scanList (canBeNeg : Bool) (radix : Nat) :
    ScanState → List Char → Except ParseErrorKind ScanState
  | st, [] => .ok st
  | st, c :: cs =>
    match scanStep canBeNeg radix st c with
    | .error e => .error e
    | .ok st2 => scanList canBeNeg radix st2 cs

/-- `parse` (from_str.rs lines 277-337): scan the input, then reject with
`NoDigits` when both spans are empty. -/
def parse (s : List Char) (canBeNeg : Bool) (radix : Nat) :
    Except ParseErrorKind Parse :=
  match scanList canBeNeg radix scanInit s with
  | .error e => .error e
  | .ok st =>
    if st.int.isEmpty && st.frac.isEmpty then .error .noDigits
    else .ok ⟨st.isNegative, st.int, st.frac⟩

/-- Numeric value of one digit character, as in Rust's `char::to_digit`:
`0`-`9`, `a`-`z`, `A`-`Z`, valid only below the radix. -/
def charToDigit (c : Char) (radix : Nat) : Option Nat :=
  let v : Option Nat :=
    if 48 ≤ c.toNat && c.toNat ≤ 57 then some (c.toNat - 48)
    else if 97 ≤ c.toNat && c.toNat ≤ 122 then some (c.toNat - 87)
    else if 65 ≤ c.toNat && c.toNat ≤ 90 then some (c.toNat - 55)
    else none
  match v with
  | some d => if d < radix then some d else none
  | none => none

/-- Accumulator loop of `uN::from_str_radix`: checked multiply-and-add of each
digit, failing (`none`) on a value that does not fit `w` bits. -/
def fromStrRadixGo (w radix : Nat) : Nat → List Char → Option Nat
  | acc, [] => some acc
  | acc, c :: cs =>
    match charToDigit c radix with
    | none => none
    | some d =>
      let acc2 := acc * radix + d
      if acc2 < 2 ^ w then fromStrRadixGo w radix acc2 cs else none

/-- Model of the Rust standard library's `uN::from_str_radix` as used by
`get_int8` etc.: an empty string is an error, an invalid digit is an error,
and overflow past `2^w - 1` is an error.  (The tokenizer spans fed to it here
never contain a sign, so sign handling is omitted.) -/
def fromStrRadix (w : Nat) (s : List Char) (radix : Nat) : Option Nat :=
  if s.isEmpty then none else fromStrRadixGo w radix 0 s

/-- Loop of `bin_str_to_bin` (from_str.rs lines 30-47) over an `N`-bit
accumulator: `bits` is the remaining capacity, each digit is shifted in, and
the digit that crosses the boundary becomes a checked rounding add. -/
def binStrGo (N : Nat) : Nat → Nat → List Char → Option Nat
  | bits, acc, [] => some ((acc <<< bits) % 2 ^ N)
  | bits, acc, byte :: rest =>
    let val := (byte.toNat + 256 - 48) % 256
    if bits < 1 then
      if acc + val < 2 ^ N then some (acc + val) else none
    else binStrGo N (bits - 1) (((acc <<< 1) % 2 ^ N + val) % 2 ^ N) rest

/-- `bin_str_to_bin` (from_str.rs lines 30-47): capacity starts at
`I::NBITS - dump_bits`. -/
def bin_str_to_bin (N : Nat) (a : List Char) (dump_bits : Nat) : Option Nat :=
  binStrGo N (N - dump_bits) 0 a

/-- Loop of `oct_str_to_bin` (from_str.rs lines 49-67). -/
def octStrGo (N : Nat) : Nat → Nat → List Char → Option Nat
  | bits, acc, [] => some ((acc <<< bits) % 2 ^ N)
  | bits, acc, byte :: rest =>
    let val := (byte.toNat + 256 - 48) % 256
    if bits < 3 then
      let acc2 := ((acc <<< bits) % 2 ^ N + (val >>> (3 - bits))) % 2 ^ N
      if acc2 + ((val >>> (2 - bits)) &&& 1) < 2 ^ N then
        some (acc2 + ((val >>> (2 - bits)) &&& 1))
      else none
    else octStrGo N (bits - 3) (((acc <<< 3) % 2 ^ N + val) % 2 ^ N) rest

/-- `oct_str_to_bin` (from_str.rs lines 49-67). -/
def oct_str_to_bin (N : Nat) (a : List Char) (dump_bits : Nat) : Option Nat :=
  octStrGo N (N - dump_bits) 0 a

/-- Loop of `hex_str_to_bin` (from_str.rs lines 69-91); the digit value is
recovered from the byte as `(byte & 0x0f) + if byte >= 0x40 { 9 } else { 0 }`. -/
def hexStrGo (N : Nat) : Nat → Nat → List Char → Option Nat
  | bits, acc, [] => some ((acc <<< bits) % 2 ^ N)
  | bits, acc, byte :: rest =>
    let val := (byte.toNat &&& 15) + (if 64 ≤ byte.toNat then 9 else 0)
    if bits < 4 then
      let acc2 := ((acc <<< bits) % 2 ^ N + (val >>> (4 - bits))) % 2 ^ N
      if acc2 + ((val >>> (3 - bits)) &&& 1) < 2 ^ N then
        some (acc2 + ((val >>> (3 - bits)) &&& 1))
      else none
    else hexStrGo N (bits - 4) (((acc <<< 4) % 2 ^ N + val) % 2 ^ N) rest

/-- `hex_str_to_bin` (from_str.rs lines 69-91). -/
def hex_str_to_bin (N : Nat) (a : List Char) (dump_bits : Nat) : Option Nat :=
  hexStrGo N (N - dump_bits) 0 a

/-- `dec3_to_bin8` (from_str.rs lines 95-106): the 3-digit decimal fraction
converter over a `u16` working value; `None` means the fraction rounds up to
one whole unit. -/
def dec3_to_bin8 (a dump_bits : Nat) : Option Nat :=
  let divisor := 5 ^ 3 * 2
  let shift := ((a <<< (8 - 3 + 1)) % 2 ^ 16) >>> dump_bits
  let round := (shift + divisor / 2) % 2 ^ 16
  if divisor ≤ round >>> (8 - dump_bits) then none
  else some ((round / divisor) % 2 ^ 8)

/-- `dec27_to_bin64` (from_str.rs lines 137-148): the 27-digit decimal
fraction converter over a `u128` working value. -/
def dec27_to_bin64 (a dump_bits : Nat) : Option Nat :=
  let divisor := 5 ^ 27 * 2
  let shift := ((a <<< (64 - 27 + 1)) % 2 ^ 128) >>> dump_bits
  let round := (shift + divisor / 2) % 2 ^ 128
  if divisor ≤ round >>> (64 - dump_bits) then none
  else some ((round / divisor) % 2 ^ 64)

/-- Value of an all-decimal-digit span, modelling
`frac[..end].parse::<$DoubleBits>().unwrap()` in the `$frac` macro: the spans
produced by the tokenizer contain only decimal digits and at most `k ≤ 27` of
them are taken, so the parse cannot fail or overflow the double-width type. -/
def decValue (s : List Char) : Nat :=
  s.foldl (fun acc c => acc * 10 + (c.toNat - 48)) 0

/-- `get_int8` (from_str.rs lines 431-462, instantiated with `$Bits = u8`,
half-width delegation disabled): strip leading zeros, handle the
zero-integer-bits layout, parse via `from_str_radix`, fold in the fraction
carry with a checked increment, reject high bits, and left-align. -/
def get_int8 (int : List Char) (radix nbits : Nat) (whole_frac : Bool) :
    Except ParseErrorKind Nat :=
  let int := int.dropWhile (fun c => c == '0')
  if nbits == 0 then
    if whole_frac || !int.isEmpty then .error .overflow else .ok 0
  else
    match fromStrRadix 8 int radix with
    | none => .error .overflow
    | some acc0 =>
      match (if whole_frac then
              (if acc0 + 1 < 2 ^ 8 then some (acc0 + 1) else none)
             else some acc0) with
      | none => .error .overflow
      | some acc =>
        let remove_bits := 8 - nbits
        if 0 < remove_bits ∧ acc >>> nbits ≠ 0 then .error .overflow
        else .ok ((acc <<< remove_bits) % 2 ^ 8)

/-- `get_frac8` (from_str.rs lines 481-501, instantiated for `u8` with
half-width delegation disabled, `$dec_frac_digits = 3`): an empty span is a
zero fraction, the power-of-two bases call the exact converters with the
argument `nbits`, and base 10 pads to 3 digits and calls `dec3_to_bin8`.
Rust's `unreachable!()` for other radices is modelled as `none`; the pipeline
never reaches it because the tokenizer accepts no digit in such a radix. -/
def get_frac8 (frac : List Char) (radix nbits : Nat) : Option Nat :=
  if frac.isEmpty then some 0
  else if radix == 2 then bin_str_to_bin 8 frac nbits
  else if radix == 8 then oct_str_to_bin 8 frac nbits
  else if radix == 16 then hex_str_to_bin 8 frac nbits
  else if radix == 10 then
    let e := min frac.length 3
    let rem := 3 - e
    let i := decValue (frac.take e) * 10 ^ rem
    dec3_to_bin8 i (8 - nbits)
  else none

/-- The `let (abs_frac, whole_frac) = match $frac(..) { Some(f) => (f, false),
None => (0, true) }` step shared by the signed and unsigned assemblers. -/
def fracResult (getFrac : List Char → Nat → Nat → Option Nat)
    (frac : List Char) (radix nbits : Nat) : Nat × Bool :=
  match getFrac frac radix nbits with
  | some f => (f, false)
  | none => (0, true)

/-- The signed assembler `$all` generated by `impl_from_str_signed`
(from_str.rs lines 378-404), generic over the bit width `N` and the two
converter functions exactly as the macro is generic over `$int`/`$frac`:
tokenize allowing a sign, convert the fraction and the integer, OR the two
fields into an unsigned magnitude, bound-check it against `MSB` (negative) or
`MSB - 1` (non-negative), and negate (two's complement) when negative. -/
def fromStrSigned (N : Nat)
    (getInt : List Char → Nat → Nat → Bool → Except ParseErrorKind Nat)
    (getFrac : List Char → Nat → Nat → Option Nat)
    (s : List Char) (radix int_nbits frac_nbits : Nat) :
    Except ParseErrorKind Nat :=
  match parse s true radix with
  | .error e => .error e
  | .ok p =>
    let fw := fracResult getFrac p.frac radix frac_nbits
    match getInt p.int radix int_nbits fw.2 with
    | .error e => .error e
    | .ok abs_int =>
      let abs := abs_int ||| fw.1
      let max_abs := if p.neg then 2 ^ (N - 1) else 2 ^ (N - 1) - 1
      if max_abs < abs then .error .overflow
      else .ok (if p.neg then (2 ^ N - abs) % 2 ^ N else abs)

/-- The unsigned assembler `$all` generated by `impl_from_str_unsigned`
(from_str.rs lines 416-429), generic over the converter functions: tokenize
disallowing a sign, convert fraction then integer, and OR the fields. -/
def fromStrUnsigned
    (getInt : List Char → Nat → Nat → Bool → Except ParseErrorKind Nat)
    (getFrac : List Char → Nat → Nat → Option Nat)
    (s : List Char) (radix int_nbits frac_nbits : Nat) :
    Except ParseErrorKind Nat :=
  match parse s false radix with
  | .error e => .error e
  | .ok p =>
    let fw := fracResult getFrac p.frac radix frac_nbits
    match getInt p.int radix int_nbits fw.2 with
    | .error e => .error e
    | .ok int_val => .ok (int_val ||| fw.1)

/-- `from_str_i8` (the `impl_from_str_signed!` instantiation for `FixedI8`):
the result is the `i8` bit pattern, represented by its value as an 8-bit
unsigned word. -/
def from_str_i8 (s : List Char) (radix int_nbits frac_nbits : Nat) :
    Except ParseErrorKind Nat :=
  fromStrSigned 8 get_int8 get_frac8 s radix int_nbits frac_nbits

/-- `from_str_u8` (the `impl_from_str_unsigned_not128!` instantiation for
`FixedU8`). -/
def from_str_u8 (s : List Char) (radix int_nbits frac_nbits : Nat) :
    Except ParseErrorKind Nat :=
  fromStrUnsigned get_int8 get_frac8 s radix int_nbits frac_nbits

/-- `int_bits` of `SealedFixed` (sealed_fixed.rs lines 36-38):
`nbits - frac_bits`, for an `N`-bit layout with `f` fraction bits. -/
def int_bits (N f : Nat) : Nat := N - f

/-- `int_mask` of `SealedFixed` (sealed_fixed.rs lines 97-103): zero when
there are no integer bits, otherwise `!0 << frac_bits` on the `N`-bit word. -/
def int_mask (N f : Nat) : Nat :=
  if int_bits N f == 0 then 0 else ((2 ^ N - 1) <<< f) % 2 ^ N

/-- `frac_mask` of `SealedFixed` (sealed_fixed.rs lines 92-94):
`!int_mask()`, the bitwise complement on the `N`-bit word. -/
def frac_mask (N f : Nat) : Nat := (2 ^ N - 1) ^^^ int_mask N f

/-- `const LO: u128 = !(!0 << 64)` from `mul_hi_lo` (from_str.rs line 194). -/
def loMask128 : Nat := (2 ^ 128 - 1) ^^^ (((2 ^ 128 - 1) <<< 64) % 2 ^ 128)

/-- `mul_hi_lo` (from_str.rs lines 193-210): the exact double-width product of
two `u128` values as a `(high, low)` pair, assembled from four half-width
partial products with carry propagation.  Every `u128` multiply and add is
taken modulo `2^128` exactly as the wrapping Rust operations are. -/
def mul_hi_lo (lhs rhs : Nat) : Nat × Nat :=
  let lhs_hi := lhs >>> 64
  let lhs_lo := lhs &&& loMask128
  let rhs_hi := rhs >>> 64
  let rhs_lo := rhs &&& loMask128
  let lhs_lo_rhs_lo := lhs_lo * rhs_lo % 2 ^ 128
  let lhs_hi_rhs_lo := lhs_hi * rhs_lo % 2 ^ 128
  let lhs_lo_rhs_hi := lhs_lo * rhs_hi % 2 ^ 128
  let lhs_hi_rhs_hi := lhs_hi * rhs_hi % 2 ^ 128
  let col01 := lhs_lo_rhs_lo
  let col01_hi := col01 >>> 64
  let col01_lo := col01 &&& loMask128
  let pcol12 := (lhs_hi_rhs_lo + col01_hi) % 2 ^ 128
  let col12 := (pcol12 + lhs_lo_rhs_hi) % 2 ^ 128
  let col12_hi := col12 >>> 64
  let col12_lo := col12 &&& loMask128
  let ans01 := ((col12_lo <<< 64) % 2 ^ 128 + col01_lo) % 2 ^ 128
  let ans23 := (lhs_hi_rhs_hi + col12_hi +
    if 2 ^ 128 ≤ pcol12 + lhs_lo_rhs_hi then (1 <<< 64) % 2 ^ 128 else 0) %
    2 ^ 128
  (ans23, ans01)

/-- Modelled from the spec: `div_wide` (from_str.rs lines 211-213) delegates
to `WideDivRem::lo_div_from` in `wide_div.rs`, which is not among the source
files; §4.4 of the spec describes it as producing the single-width quotient
of the double-width `(high, low)` dividend by the single-width divisor. -/
def div_wide (dividend_hi dividend_lo divisor : Nat) : Nat :=
  ((dividend_hi * 2 ^ 128 + dividend_lo) / divisor) % 2 ^ 128

end FixedFromStr

namespace FixedFromStr

/-- C1: boundary parses on the 8-bit, 0-integer-bit / 8-fraction-bit layouts:
on the signed type (I0F8), `"-0.501"` gives bit pattern `0x80`, `"-0.502"`
overflows, `"0.498"` gives `0x7F`, `"0.499"` overflows; on the unsigned type
(U0F8), `"0.498"` gives `0x7F`, `"0.499"` gives `0x80`, `"0.998"` gives
`0xFF`, `"0.999"` and `"1"` overflow, and `"-0"` is an invalid digit. -/
theorem C1_boundary_8bit :
    from_str_i8 ['-', '0', '.', '5', '0', '1'] 10 0 8 = .ok 0x80
  ∧ from_str_i8 ['-', '0', '.', '5', '0', '2'] 10 0 8 = .error .overflow
  ∧ from_str_i8 ['0', '.', '4', '9', '8'] 10 0 8 = .ok 0x7F
  ∧ from_str_i8 ['0', '.', '4', '9', '9'] 10 0 8 = .error .overflow
  ∧ from_str_u8 ['0', '.', '4', '9', '8'] 10 0 8 = .ok 0x7F
  ∧ from_str_u8 ['0', '.', '4', '9', '9'] 10 0 8 = .ok 0x80
  ∧ from_str_u8 ['0', '.', '9', '9', '8'] 10 0 8 = .ok 0xFF
  ∧ from_str_u8 ['0', '.', '9', '9', '9'] 10 0 8 = .error .overflow
  ∧ from_str_u8 ['1'] 10 0 8 = .error .overflow
  ∧ from_str_u8 ['-', '0'] 10 0 8 = .error .invalidDigit :=
  ⟨rfl, rfl, rfl, rfl, rfl, rfl, rfl, rfl, rfl, rfl⟩

/-- C2: evaluation of the code at inputs falsifying the claim.  On the 8-bit
unsigned layout with 4 integer and 4 fraction bits, `"0"` (magnitude zero)
and `"0.5"` (magnitude `8/16`, representable) are both rejected with
`Overflow`: `get_int8` strips the leading zeros and hands the then-empty
digit string to `u8::from_str_radix`, whose empty-input error is mapped to
`Overflow` although no range was exceeded. -/
theorem C2_zero_int_span_overflows :
    from_str_u8 ['0'] 10 4 4 = .error .overflow
  ∧ from_str_u8 ['0', '.', '5'] 10 4 4 = .error .overflow :=
  ⟨rfl, rfl⟩

/-- C3: evaluation of the code at inputs falsifying the claim.  The value
one half is exactly representable on the 8-bit unsigned layout with 4
integer and 4 fraction bits, yet parsing its base-2, base-8 and base-16
representations `"0.1"`, `"0.4"`, `"0.8"` does not succeed: all three are
rejected with `Overflow` by the stripped-empty-integer-span slip. -/
theorem C3_base_reps_of_half_fail :
    from_str_u8 ['0', '.', '1'] 2 4 4 = .error .overflow
  ∧ from_str_u8 ['0', '.', '4'] 8 4 4 = .error .overflow
  ∧ from_str_u8 ['0', '.', '8'] 16 4 4 = .error .overflow :=
  ⟨rfl, rfl, rfl⟩

/-- C4: evaluation of the code at an input falsifying the claim.  For the
base-2 fraction span `"1"` (value one half) and fraction-bit count `F = 8` on
the 8-bit converter, the claim requires `0.5 * 2^8 = 128`; the code passes
`nbits` as the `dump_bits` argument of `bin_str_to_bin`, so the working
capacity becomes `8 - 8 = 0` bits and the converter returns `1`. -/
theorem C4_pow2_frac_converter_wrong_capacity :
    get_frac8 ['1'] 2 8 = some 1 ∧ bin_str_to_bin 8 ['1'] 8 = some 1 :=
  ⟨rfl, rfl⟩

/-- Arithmetic characterization of `dec3_to_bin8`: within the asserted input
range no `u16` operation wraps, the shift computes the floor of
`a * 2^(8-3+1) / 2^dump_bits`, and the carry test compares the rounded value
against `D * 2^F` where `F = 8 - dump_bits`. -/
theorem dec3_to_bin8_arith (a d : Nat) (ha : a < 10 ^ 3) (hd : d ≤ 8) :
    dec3_to_bin8 a d =
      if 5 ^ 3 * 2 * 2 ^ (8 - d) ≤ a * 2 ^ (8 - 3 + 1) / 2 ^ d + 5 ^ 3 then
        none
      else some ((a * 2 ^ (8 - 3 + 1) / 2 ^ d + 5 ^ 3) / (5 ^ 3 * 2)) := by
  norm_num at ha
  have hpow : (0 : Nat) < 2 ^ (8 - d) := Nat.pos_pow_of_pos _ (by norm_num)
  have hple : (2 : Nat) ^ (8 - d) ≤ 2 ^ 8 :=
    Nat.pow_le_pow_right (by norm_num) (by omega)
  have p8 : (2 : Nat) ^ 8 = 256 := by norm_num
  have p16 : (2 : Nat) ^ 16 = 65536 := by norm_num
  have e1 : (2 : Nat) ^ (8 - 3 + 1) = 64 := by norm_num
  have e2 : (5 : Nat) ^ 3 = 125 := by norm_num
  have e3 : (125 * 2 / 2 : Nat) = 125 := by norm_num
  have hdl : a * 64 / 2 ^ d ≤ a * 64 := Nat.div_le_self _ _
  have e4 : a * 64 % 2 ^ 16 = a * 64 := Nat.mod_eq_of_lt (by omega)
  have e5 : (a * 64 / 2 ^ d + 125) % 2 ^ 16 = a * 64 / 2 ^ d + 125 :=
    Nat.mod_eq_of_lt (by omega)
  simp only [dec3_to_bin8, e1, e2, Nat.shiftLeft_eq, Nat.shiftRight_eq_div_pow,
    e3, e4, e5]
  by_cases hc : 125 * 2 * 2 ^ (8 - d) ≤ a * 64 / 2 ^ d + 125
  · rw [if_pos ((Nat.le_div_iff_mul_le hpow).mpr hc), if_pos hc]
  · rw [if_neg (fun h => hc ((Nat.le_div_iff_mul_le hpow).mp h)), if_neg hc]
    have hlt : (a * 64 / 2 ^ d + 125) / (125 * 2) < 2 ^ 8 :=
      Nat.div_lt_of_lt_mul (by omega)
    rw [Nat.mod_eq_of_lt hlt]

/-- Arithmetic characterization of `dec27_to_bin64`, analogous to
`dec3_to_bin8_arith`: no `u128` operation wraps in the asserted range and the
carry test compares the rounded value against `D * 2^F`, `F = 64 - dump_bits`. -/
theorem dec27_to_bin64_arith (a d : Nat) (ha : a < 10 ^ 27) (hd : d ≤ 64) :
    dec27_to_bin64 a d =
      if 5 ^ 27 * 2 * 2 ^ (64 - d) ≤ a * 2 ^ (64 - 27 + 1) / 2 ^ d + 5 ^ 27 then
        none
      else some ((a * 2 ^ (64 - 27 + 1) / 2 ^ d + 5 ^ 27) / (5 ^ 27 * 2)) := by
  norm_num at ha
  have hpow : (0 : Nat) < 2 ^ (64 - d) := Nat.pos_pow_of_pos _ (by norm_num)
  have hple : (2 : Nat) ^ (64 - d) ≤ 2 ^ 64 :=
    Nat.pow_le_pow_right (by norm_num) (by omega)
  have p64 : (2 : Nat) ^ 64 = 18446744073709551616 := by norm_num
  have p128 : (2 : Nat) ^ 128 =
      340282366920938463463374607431768211456 := by norm_num
  have e1 : (2 : Nat) ^ (64 - 27 + 1) = 274877906944 := by norm_num
  have e2 : (5 : Nat) ^ 27 = 7450580596923828125 := by norm_num
  have e3 : (7450580596923828125 * 2 / 2 : Nat) = 7450580596923828125 := by
    norm_num
  have hdl : a * 274877906944 / 2 ^ d ≤ a * 274877906944 := Nat.div_le_self _ _
  have e4 : a * 274877906944 % 2 ^ 128 = a * 274877906944 :=
    Nat.mod_eq_of_lt (by omega)
  have e5 : (a * 274877906944 / 2 ^ d + 7450580596923828125) % 2 ^ 128 =
      a * 274877906944 / 2 ^ d + 7450580596923828125 :=
    Nat.mod_eq_of_lt (by omega)
  simp only [dec27_to_bin64, e1, e2, Nat.shiftLeft_eq,
    Nat.shiftRight_eq_div_pow, e3, e4, e5]
  by_cases hc : 7450580596923828125 * 2 * 2 ^ (64 - d) ≤
      a * 274877906944 / 2 ^ d + 7450580596923828125
  · rw [if_pos ((Nat.le_div_iff_mul_le hpow).mpr hc), if_pos hc]
  · rw [if_neg (fun h => hc ((Nat.le_div_iff_mul_le hpow).mp h)), if_neg hc]
    have hlt : (a * 274877906944 / 2 ^ d + 7450580596923828125) /
        (7450580596923828125 * 2) < 2 ^ 64 :=
      Nat.div_lt_of_lt_mul (by omega)
    rw [Nat.mod_eq_of_lt hlt]

/-- C5 counterexample: the claim's carry condition uses the shift amount
`total_bits - F`; at `a = 3`, `dump_bits = 0` (so `F = 8`, `D = 250`) the
claimed condition `rounded >> (total_bits - F) ≥ D` holds — under either
reading of `m` (the target width 8 or the doubled width 16) — so the claim
predicts the whole-unit carry `none`, but `dec3_to_bin8` returns `some 1`
because the code shifts by `F`, not by `total_bits - F`. -/
theorem C5_carry_shift_counterexample :
    dec3_to_bin8 3 0 = some 1
  ∧ ((3 <<< (8 - 3 + 1)) >>> 0 + 250 / 2) >>> (8 - 8) ≥ 250
  ∧ ((3 <<< (16 - 3 + 1)) >>> 0 + 250 / 2) >>> (8 - 8) ≥ 250 :=
  ⟨rfl, by decide, by decide⟩

/-- C5 (amended): for the decimal fraction converters (shown for the 8-bit
and 64-bit widths cited by the claim), with `a` the `k`-digit zero-padded
fraction value and `D = 5^k * 2`: the converter computes
`shifted = (a << (w - k + 1)) >> dump_bits` with `w` the target width (not
the doubled working width) and `rounded = shifted + D/2`; it signals the
whole-unit carry exactly when `rounded ≥ D * 2^F` — that is, when
`rounded >> F ≥ D` with `F = w - dump_bits`, not `rounded >> (w - F) ≥ D` —
and otherwise returns `rounded / D`. -/
theorem C5_decimal_converter_formula :
    (∀ a d, a < 10 ^ 3 → d ≤ 8 →
      dec3_to_bin8 a d =
        if 5 ^ 3 * 2 * 2 ^ (8 - d) ≤ a * 2 ^ (8 - 3 + 1) / 2 ^ d + 5 ^ 3 then
          none
        else some ((a * 2 ^ (8 - 3 + 1) / 2 ^ d + 5 ^ 3) / (5 ^ 3 * 2)))
  ∧ (∀ a d, a < 10 ^ 27 → d ≤ 64 →
      dec27_to_bin64 a d =
        if 5 ^ 27 * 2 * 2 ^ (64 - d) ≤
            a * 2 ^ (64 - 27 + 1) / 2 ^ d + 5 ^ 27 then
          none
        else some ((a * 2 ^ (64 - 27 + 1) / 2 ^ d + 5 ^ 27) / (5 ^ 27 * 2))) :=
  ⟨dec3_to_bin8_arith, dec27_to_bin64_arith⟩

/-- Witness for C5: the amended formula applied at concrete inputs. -/
theorem C5_decimal_converter_formula_witness :
    dec3_to_bin8 498 0 = some 127 ∧ dec27_to_bin64 (10 ^ 27 - 1) 0 = none := by
  constructor
  · rw [C5_decimal_converter_formula.1 498 0 (by norm_num) (by norm_num)]
    decide
  · rw [C5_decimal_converter_formula.2 (10 ^ 27 - 1) 0 (by norm_num)
      (by norm_num)]
    norm_num

/-- `!(!0 << 64)` on a `u128` is the low-half mask `2^64 - 1`. -/
theorem loMask128_eq : loMask128 = 2 ^ 64 - 1 := by decide

/-- `mul_hi_lo` computes the exact double-width product: the wrapping `u128`
operations never lose information except where the algorithm accounts for the
carry, and the `(high, low)` pair satisfies `high * 2^128 + low = lhs * rhs`. -/
theorem mul_hi_lo_exact (a b : Nat) (ha : a < 2 ^ 128) (hb : b < 2 ^ 128) :
    (mul_hi_lo a b).1 * 2 ^ 128 + (mul_hi_lo a b).2 = a * b := by
  have hmask : ∀ x : Nat, x &&& loMask128 = x % 2 ^ 64 := fun x => by
    rw [loMask128_eq]; exact Nat.and_pow_two_sub_one_eq_mod x 64
  have p64 : (2 : Nat) ^ 64 = 18446744073709551616 := by norm_num
  have p128 : (2 : Nat) ^ 128 =
      340282366920938463463374607431768211456 := by norm_num
  simp only [mul_hi_lo, hmask, Nat.shiftRight_eq_div_pow, Nat.shiftLeft_eq,
    p64, p128]
  rw [p128] at ha
  rw [p128] at hb
  have h1 : 18446744073709551616 * (a / 18446744073709551616) +
      a % 18446744073709551616 = a := Nat.div_add_mod _ _
  have h2 : 18446744073709551616 * (b / 18446744073709551616) +
      b % 18446744073709551616 = b := Nat.div_add_mod _ _
  have hab : a * b =
      340282366920938463463374607431768211456 *
        (a / 18446744073709551616 * (b / 18446744073709551616)) +
      18446744073709551616 *
        (a / 18446744073709551616 * (b % 18446744073709551616)) +
      18446744073709551616 *
        (a % 18446744073709551616 * (b / 18446744073709551616)) +
      a % 18446744073709551616 * (b % 18446744073709551616) := by
    conv_lhs => rw [← h1, ← h2]
    ring
  have b1 : a / 18446744073709551616 * (b / 18446744073709551616) ≤
      18446744073709551615 * 18446744073709551615 :=
    Nat.mul_le_mul (by omega) (by omega)
  have b2 : a / 18446744073709551616 * (b % 18446744073709551616) ≤
      18446744073709551615 * 18446744073709551615 :=
    Nat.mul_le_mul (by omega) (by omega)
  have b3 : a % 18446744073709551616 * (b / 18446744073709551616) ≤
      18446744073709551615 * 18446744073709551615 :=
    Nat.mul_le_mul (by omega) (by omega)
  have b4 : a % 18446744073709551616 * (b % 18446744073709551616) ≤
      18446744073709551615 * 18446744073709551615 :=
    Nat.mul_le_mul (by omega) (by omega)
  split <;> omega

/-- C7: for all native-width (128-bit) unsigned `a`, `b` with `b ≠ 0`,
dividing the exact double-width product `mul_hi_lo a b` by `b` with the wide
divide returns `a`. -/
theorem C7_wide_mul_div_roundtrip (a b : Nat) (ha : a < 2 ^ 128)
    (hb : b < 2 ^ 128) (hb0 : b ≠ 0) :
    div_wide (mul_hi_lo a b).1 (mul_hi_lo a b).2 b = a := by
  unfold div_wide
  rw [mul_hi_lo_exact a b ha hb, Nat.mul_div_cancel _ (Nat.pos_of_ne_zero hb0),
    Nat.mod_eq_of_lt ha]

/-- Witness for C7: the roundtrip applied at a concrete input. -/
theorem C7_wide_mul_div_roundtrip_witness :
    div_wide (mul_hi_lo (2 ^ 100 + 3) (2 ^ 90 + 7)).1
      (mul_hi_lo (2 ^ 100 + 3) (2 ^ 90 + 7)).2 (2 ^ 90 + 7) = 2 ^ 100 + 3 :=
  C7_wide_mul_div_roundtrip (2 ^ 100 + 3) (2 ^ 90 + 7) (by norm_num)
    (by norm_num) (by norm_num)

/-- C6: the signed assembler's bound check and final bit pattern.  For every
signed width `N` and any converter functions, once the tokenizer has produced
`p`, the fraction step `(af, wf)` and the integer step `ai`, the result is
`Overflow` exactly when the magnitude `ai ||| af` exceeds `2^(N-1)` (negative
literal) resp. `2^(N-1) - 1` (non-negative), and otherwise the bit pattern is
the two's-complement negation of the magnitude when negative and the
magnitude unchanged when non-negative. -/
theorem C6_signed_assembler (N : Nat)
    (gi : List Char → Nat → Nat → Bool → Except ParseErrorKind Nat)
    (gf : List Char → Nat → Nat → Option Nat)
    (s : List Char) (radix int_nbits frac_nbits : Nat) (p : Parse)
    (af : Nat) (wf : Bool) (ai : Nat)
    (hp : parse s true radix = .ok p)
    (hf : fracResult gf p.frac radix frac_nbits = (af, wf))
    (hi : gi p.int radix int_nbits wf = .ok ai) :
    fromStrSigned N gi gf s radix int_nbits frac_nbits =
      if (if p.neg then 2 ^ (N - 1) else 2 ^ (N - 1) - 1) < (ai ||| af) then
        .error .overflow
      else .ok (if p.neg then (2 ^ N - (ai ||| af)) % 2 ^ N else ai ||| af) := by
  simp only [fromStrSigned, hp, hf, hi]

/-- Witness for C6: the assembler characterization applied to the concrete
parse of `"-0.501"` on the signed 8-bit layout with 8 fraction bits. -/
theorem C6_signed_assembler_witness :
    fromStrSigned 8 get_int8 get_frac8 ['-', '0', '.', '5', '0', '1'] 10 0 8 =
      if (if true then 2 ^ (8 - 1) else 2 ^ (8 - 1) - 1) < (0 ||| 128) then
        .error .overflow
      else .ok (if true then (2 ^ 8 - (0 ||| 128)) % 2 ^ 8 else 0 ||| 128) :=
  C6_signed_assembler 8 get_int8 get_frac8 ['-', '0', '.', '5', '0', '1'] 10 0
    8 ⟨true, ['0'], ['5', '0', '1']⟩ 128 false 0 rfl rfl rfl

/-- C10: for every layout, including `frac_bits = 0` and
`frac_bits = total width`, `int_mask` is exactly the top `int_bits` bits
(the value `(2^(N-f) - 1) * 2^f`), `frac_mask` is its complement with
exactly the low `f` bits set, and the two masks are disjoint and together
cover the whole `N`-bit pattern. -/
theorem C10_masks (N f : Nat) (hf : f ≤ N) :
    int_mask N f = (2 ^ (N - f) - 1) * 2 ^ f
  ∧ frac_mask N f = 2 ^ f - 1
  ∧ int_mask N f &&& frac_mask N f = 0
  ∧ int_mask N f ||| frac_mask N f = 2 ^ N - 1 := by
  have hp1 : (0 : Nat) < 2 ^ f := Nat.pos_pow_of_pos _ (by norm_num)
  have hp2 : (0 : Nat) < 2 ^ N := Nat.pos_pow_of_pos _ (by norm_num)
  have hfN : (2 : Nat) ^ f ≤ 2 ^ N := Nat.pow_le_pow_right (by norm_num) hf
  have hNf : N - f + f = N := by omega
  have hmul : (2 ^ (N - f) - 1) * 2 ^ f = 2 ^ N - 2 ^ f := by
    rw [Nat.sub_mul, one_mul, ← pow_add, hNf]
  have h1 : int_mask N f = (2 ^ (N - f) - 1) * 2 ^ f := by
    unfold int_mask int_bits
    by_cases h0 : N - f = 0
    · simp [h0]
    · have hfltN : f < N := by omega
      have hfltN2 : (2 : Nat) ^ f < 2 ^ N :=
        Nat.pow_lt_pow_right (by norm_num) hfltN
      rw [if_neg (by simpa using h0), Nat.shiftLeft_eq, hmul]
      have e : (2 ^ N - 1) * 2 ^ f = 2 ^ N - 2 ^ f + (2 ^ f - 1) * 2 ^ N := by
        have hle : (2 : Nat) ^ N ≤ 2 ^ N * 2 ^ f :=
          Nat.le_mul_of_pos_right _ hp1
        have hle2 : (2 : Nat) ^ f ≤ 2 ^ N * 2 ^ f :=
          Nat.le_mul_of_pos_left _ hp2
        rw [Nat.sub_mul, one_mul, Nat.sub_mul, one_mul,
          mul_comm (2 ^ f) (2 ^ N)]
        omega
      rw [e, Nat.add_mul_mod_self_right, Nat.mod_eq_of_lt (by omega)]
  have h2 : frac_mask N f = 2 ^ f - 1 := by
    unfold frac_mask
    rw [h1, ← Nat.shiftLeft_eq]
    apply Nat.eq_of_testBit_eq
    intro i
    simp only [Nat.testBit_xor, Nat.testBit_shiftLeft,
      Nat.testBit_two_pow_sub_one]
    by_cases hfi : f ≤ i <;> by_cases hiN : i < N
    · simp [hfi, hiN, show i - f < N - f by omega, show ¬(i < f) by omega]
    · simp [hfi, hiN, show ¬(i - f < N - f) by omega, show ¬(i < f) by omega]
    · simp [hfi, hiN, show i < f by omega]
    · omega
  have h3 : int_mask N f &&& frac_mask N f = 0 := by
    rw [h1, h2, Nat.and_pow_two_sub_one_eq_mod, Nat.mul_mod_left]
  have h4 : int_mask N f ||| frac_mask N f = 2 ^ N - 1 := by
    rw [h1, h2, ← Nat.shiftLeft_eq]
    apply Nat.eq_of_testBit_eq
    intro i
    simp only [Nat.testBit_or, Nat.testBit_shiftLeft,
      Nat.testBit_two_pow_sub_one]
    by_cases hfi : f ≤ i <;> by_cases hiN : i < N
    · simp [hfi, hiN, show i - f < N - f by omega, show ¬(i < f) by omega]
    · simp [hfi, hiN, show ¬(i - f < N - f) by omega, show ¬(i < f) by omega]
    · simp [hfi, hiN, show i < f by omega]
    · omega
  exact ⟨h1, h2, h3, h4⟩

/-- Witness for C10: the mask characterization at the 8-bit layout with 3
fraction bits. -/
theorem C10_masks_witness :
    int_mask 8 3 = (2 ^ (8 - 3) - 1) * 2 ^ 3
  ∧ frac_mask 8 3 = 2 ^ 3 - 1
  ∧ int_mask 8 3 &&& frac_mask 8 3 = 0
  ∧ int_mask 8 3 ||| frac_mask 8 3 = 2 ^ 8 - 1 :=
  C10_masks 8 3 (by norm_num)

/-- Characterization of a successful scanner step: the point / sign /
negative flags after the step, and the fact that a processed digit leaves
either the digit flag or the point flag set. -/
theorem scanStep_ok (cbn : Bool) (radix : Nat) (st : ScanState) (c : Char)
    (st1 : ScanState) (h : scanStep cbn radix st c = .ok st1) :
    st1.hasPoint = (st.hasPoint || c == '.')
  ∧ st1.hasSign = (st.hasSign || (c == '+' || c == '-'))
  ∧ st1.isNegative = (st.isNegative || (cbn && c == '-'))
  ∧ ((st.hasDigits || st.hasPoint || isDigitFor radix c) = true →
      (st1.hasDigits || st1.hasPoint) = true) := by
  unfold scanStep at h
  by_cases h1 : c == '.'
  · rw [if_pos h1] at h
    have hc : c = '.' := by simpa using h1
    subst hc
    by_cases h2 : st.hasPoint
    · rw [if_pos h2] at h; exact absurd h (by simp)
    · rw [if_neg h2] at h
      have e := Except.ok.inj h
      subst e
      simp only [Bool.not_eq_true] at h2
      simp [h2]
  · rw [if_neg h1] at h
    by_cases h2 : c == '+'
    · rw [if_pos h2] at h
      have hc : c = '+' := by simpa using h2
      subst hc
      by_cases h3 : st.hasPoint || st.hasSign || st.hasDigits
      · rw [if_pos h3] at h; exact absurd h (by simp)
      · rw [if_neg h3] at h
        have e := Except.ok.inj h
        subst e
        simp only [Bool.or_eq_true, not_or, Bool.not_eq_true] at h3
        obtain ⟨⟨hp, hs⟩, hd⟩ := h3
        refine ⟨by simp [hp], by simp [hs], by simp, ?_⟩
        intro hh
        rw [hp, hd] at hh
        simp [isDigitFor] at hh
    · rw [if_neg h2] at h
      by_cases h3 : c == '-'
      · rw [if_pos h3] at h
        have hc : c = '-' := by simpa using h3
        subst hc
        by_cases h4 : st.hasPoint || st.hasSign || st.hasDigits || !cbn
        · rw [if_pos h4] at h; exact absurd h (by simp)
        · rw [if_neg h4] at h
          have e := Except.ok.inj h
          subst e
          simp only [Bool.or_eq_true, not_or, Bool.not_eq_true,
            Bool.not_eq_true'] at h4
          obtain ⟨⟨⟨hp, hs⟩, hd⟩, hcb⟩ := h4
          refine ⟨by simp [hp], by simp [hs], by simp [hcb], ?_⟩
          intro hh
          rw [hp, hd] at hh
          simp [isDigitFor] at hh
      · rw [if_neg h3] at h
        by_cases h4 : isDigitFor radix c
        · rw [if_pos h4] at h
          have e := Except.ok.inj h
          subst e
          simp only [Bool.not_eq_true] at h1 h2 h3
          simp [h1, h2, h3]
        · rw [if_neg h4] at h; exact absurd h (by simp)

/-- Scanner invariant along a whole successfully scanned prefix: the point /
sign / negative flags record exactly whether such characters occur in the
prefix, and a digit in the prefix leaves the digit or point flag set. -/
theorem scanList_inv (cbn : Bool) (radix : Nat) :
    ∀ (pr : List Char) (st st2 : ScanState),
      scanList cbn radix st pr = .ok st2 →
      st2.hasPoint = (st.hasPoint || pr.any (fun c => c == '.'))
    ∧ st2.hasSign = (st.hasSign || pr.any (fun c => c == '+' || c == '-'))
    ∧ st2.isNegative =
        (st.isNegative || (cbn && pr.any (fun c => c == '-')))
    ∧ ((st.hasDigits || st.hasPoint ||
        pr.any (fun c => isDigitFor radix c)) = true →
        (st2.hasDigits || st2.hasPoint) = true)
  | [], st, st2, h => by
    have e : st = st2 := by simpa [scanList] using h
    subst e
    simp
  | c :: cs, st, st2, h => by
    rw [scanList] at h
    cases hstep : scanStep cbn radix st c with
    | error e => rw [hstep] at h; exact absurd h (by simp)
    | ok st1 =>
      rw [hstep] at h
      obtain ⟨ih1, ih2, ih3, ih4⟩ := scanList_inv cbn radix cs st1 st2 h
      obtain ⟨s1, s2, s3, s4⟩ := scanStep_ok cbn radix st c st1 hstep
      refine ⟨?_, ?_, ?_, ?_⟩
      · rw [ih1, s1, List.any_cons, Bool.or_assoc]
      · rw [ih2, s2, List.any_cons, Bool.or_assoc]
      · rw [ih3, s3, List.any_cons, Bool.and_or_distrib_left, Bool.or_assoc]
      · intro hh
        rw [List.any_cons] at hh
        apply ih4
        rcases Bool.or_eq_true_iff.mp hh with hl | hr
        · rcases Bool.or_eq_true_iff.mp hl with hll | hlr
          · have := s4 (by rw [hll]; rfl)
            rcases Bool.or_eq_true_iff.mp this with h5 | h5 <;>
              simp [h5]
          · have := s4 (by rw [hlr]; simp)
            rcases Bool.or_eq_true_iff.mp this with h5 | h5 <;>
              simp [h5]
        · rcases Bool.or_eq_true_iff.mp hr with hrl | hrr
          · have := s4 (by rw [hrl]; simp)
            rcases Bool.or_eq_true_iff.mp this with h5 | h5 <;>
              simp [h5]
          · simp [hrr]

/-- Scanning a concatenation is scanning the first part, then the second. -/
theorem scanList_append (cbn : Bool) (radix : Nat) (s t : List Char) :
    ∀ st, scanList cbn radix st (s ++ t) =
      match scanList cbn radix st s with
      | .error e => .error e
      | .ok st1 => scanList cbn radix st1 t := by
  induction s with
  | nil => intro st; rfl
  | cons c cs ih =>
    intro st
    rw [List.cons_append, scanList, scanList]
    cases scanStep cbn radix st c with
    | error e => rfl
    | ok st1 => exact ih st1

/-- Appending a radix point to a point-free input does not change the
tokenizer's result: the scan of the prefix ends with `has_point` false, the
final point is accepted, and it alters neither the spans nor the sign. -/
theorem parse_append_point (s : List Char) (cbn : Bool) (radix : Nat)
    (h : '.' ∉ s) :
    parse (s ++ ['.']) cbn radix = parse s cbn radix := by
  unfold parse
  rw [scanList_append]
  cases hscan : scanList cbn radix scanInit s with
  | error e => rfl
  | ok st =>
    have hany : s.any (fun c => c == '.') = false := by
      rw [List.any_eq_false]
      intro x hx
      simp only [beq_iff_eq]
      rintro rfl
      exact h hx
    have hpt : st.hasPoint = false := by
      rw [(scanList_inv cbn radix s scanInit st hscan).1, hany]
      rfl
    simp [scanList, scanStep, hpt]

/-- A scanner step that accepts a sign character can only have started from
a state in which no point, sign, or digit had been seen. -/
theorem sign_accepted_flags (cbn : Bool) (radix : Nat) (st : ScanState)
    (c : Char) (st2 : ScanState) (hsign : (c == '+' || c == '-') = true)
    (hstep : scanStep cbn radix st c = .ok st2) :
    st.hasPoint = false ∧ st.hasSign = false ∧ st.hasDigits = false := by
  rcases Bool.or_eq_true_iff.mp hsign with h | h
  · have hc : c = '+' := by simpa using h
    subst hc
    rw [scanStep, if_neg (by decide), if_pos (by decide)] at hstep
    by_cases hcond : st.hasPoint || st.hasSign || st.hasDigits
    · rw [if_pos hcond] at hstep; exact absurd hstep (by simp)
    · simp only [Bool.or_eq_true, not_or, Bool.not_eq_true] at hcond
      exact ⟨hcond.1.1, hcond.1.2, hcond.2⟩
  · have hc : c = '-' := by simpa using h
    subst hc
    rw [scanStep, if_neg (by decide), if_neg (by decide),
      if_pos (by decide)] at hstep
    by_cases hcond : st.hasPoint || st.hasSign || st.hasDigits || !cbn
    · rw [if_pos hcond] at hstep; exact absurd hstep (by simp)
    · simp only [Bool.or_eq_true, not_or, Bool.not_eq_true] at hcond
      exact ⟨hcond.1.1.1, hcond.1.1.2, hcond.1.2⟩

/-- C8: the tokenizer rejects the malformed inputs with the specified error
kinds; a call disallowing signs never produces a negative literal (shown both
on `"-12"` and in general); and a sign character is accepted by the scanner
only when no digit, sign, or radix point occurs anywhere before it. -/
theorem C8_malformed_rejection :
    parse ['s', 'o', 'm', 'e', 't', 'h', 'i', 'n', 'g', ' ', 'c', 'o', 'm',
      'p', 'l', 'e', 't', 'e', 'l', 'y', ' ', 'd', 'i', 'f', 'f', 'e', 'r',
      'e', 'n', 't', ' ', '(', '_', '!', '_', '!', '_', ')'] true 10 =
      .error .invalidDigit
  ∧ parse ['1', '+', '2'] true 10 = .error .invalidDigit
  ∧ parse ['1', '-', '2'] true 10 = .error .invalidDigit
  ∧ parse ['.', '1', '.'] true 10 = .error .tooManyPoints
  ∧ parse ['+', '.'] true 10 = .error .noDigits
  ∧ parse ['-', '1', '2'] false 10 = .error .invalidDigit
  ∧ (∀ s radix p, parse s false radix = .ok p → p.neg = false)
  ∧ (∀ cbn : Bool, ∀ radix : Nat, ∀ pr : List Char, ∀ stp st2 : ScanState,
      ∀ c : Char,
      scanList cbn radix scanInit pr = .ok stp →
      (c == '+' || c == '-') = true →
      scanStep cbn radix stp c = .ok st2 →
      ∀ d ∈ pr, ¬(d = '.' ∨ d = '+' ∨ d = '-' ∨ isDigitFor radix d = true)) := by
  refine ⟨rfl, rfl, rfl, rfl, rfl, rfl, ?_, ?_⟩
  · intro s radix p hp
    unfold parse at hp
    split at hp
    · exact absurd hp (by simp)
    · rename_i st hscan
      split at hp
      · exact absurd hp (by simp)
      · have e := Except.ok.inj hp
        subst e
        have i3 := (scanList_inv false radix s scanInit st hscan).2.2.1
        simpa [scanInit] using i3
  · intro cbn radix pr stp st2 c hscan hsign hstep d hd hcon
    obtain ⟨hfp, hfs, hfd⟩ := sign_accepted_flags cbn radix stp c st2 hsign
      hstep
    obtain ⟨i1, i2, _, i4⟩ := scanList_inv cbn radix pr scanInit stp hscan
    have hanyPoint : pr.any (fun x => x == '.') = false := by
      rw [hfp] at i1
      simpa [scanInit] using i1.symm
    have hanySign : pr.any (fun x => (x == '+' || x == '-')) = false := by
      rw [hfs] at i2
      simpa [scanInit] using i2.symm
    have hanyDigit : pr.any (fun x => isDigitFor radix x) = false := by
      by_contra hne
      have htrue : pr.any (fun x => isDigitFor radix x) = true := by
        cases hh : pr.any (fun x => isDigitFor radix x)
        · exact absurd hh hne
        · rfl
      have := i4 (by simp [scanInit, htrue])
      rw [hfp, hfd] at this
      simp at this
    rcases hcon with rfl | rfl | rfl | hdig
    · have : pr.any (fun x => x == '.') = true :=
        List.any_eq_true.mpr ⟨_, hd, by simp⟩
      rw [hanyPoint] at this
      exact Bool.false_ne_true this
    · have : pr.any (fun x => (x == '+' || x == '-')) = true :=
        List.any_eq_true.mpr ⟨_, hd, by simp⟩
      rw [hanySign] at this
      exact Bool.false_ne_true this
    · have : pr.any (fun x => (x == '+' || x == '-')) = true :=
        List.any_eq_true.mpr ⟨_, hd, by simp⟩
      rw [hanySign] at this
      exact Bool.false_ne_true this
    · have : pr.any (fun x => isDigitFor radix x) = true :=
        List.any_eq_true.mpr ⟨_, hd, hdig⟩
      rw [hanyDigit] at this
      exact Bool.false_ne_true this

/-- Witness for C8: the universal no-negative-result component applied to the
concrete successful unsigned-mode parse of `"12"`. -/
theorem C8_malformed_rejection_witness :
    (⟨false, ['1', '2'], []⟩ : Parse).neg = false :=
  C8_malformed_rejection.2.2.2.2.2.2.1 ['1', '2'] 10
    ⟨false, ['1', '2'], []⟩ rfl

/-- C9 counterexample: appending a radix point is not always harmless — for
an input that already contains one, the appended point changes the result
from success to `TooManyPoints` (shown on the 8-bit unsigned layout with 4
integer and 4 fraction bits). -/
theorem C9_point_append_counterexample :
    from_str_u8 ['1', '.', '5', '.'] 10 4 4 = .error .tooManyPoints
  ∧ from_str_u8 ['1', '.', '5'] 10 4 4 = .ok 24
  ∧ Except.error ParseErrorKind.tooManyPoints ≠
      (Except.ok 24 : Except ParseErrorKind Nat) :=
  ⟨rfl, rfl, by simp⟩

/-- C9 (amended): for every input `s` that contains no radix point, every
base, and every layout, parsing `s` with a point appended gives exactly the
same result as parsing `s`: the tokenizer output is unchanged (the empty
fraction span contributes a zero fraction field and never a carry), hence
both generic assemblers — for any converter functions, so for every width
and layout — give identical results. -/
theorem C9_point_append_amended :
    (∀ s : List Char, ∀ cbn : Bool, ∀ radix : Nat, '.' ∉ s →
      parse (s ++ ['.']) cbn radix = parse s cbn radix)
  ∧ (∀ N : Nat,
      ∀ gi : List Char → Nat → Nat → Bool → Except ParseErrorKind Nat,
      ∀ gf : List Char → Nat → Nat → Option Nat,
      ∀ s : List Char, ∀ radix int_nbits frac_nbits : Nat, '.' ∉ s →
      fromStrSigned N gi gf (s ++ ['.']) radix int_nbits frac_nbits =
        fromStrSigned N gi gf s radix int_nbits frac_nbits)
  ∧ (∀ gi : List Char → Nat → Nat → Bool → Except ParseErrorKind Nat,
      ∀ gf : List Char → Nat → Nat → Option Nat,
      ∀ s : List Char, ∀ radix int_nbits frac_nbits : Nat, '.' ∉ s →
      fromStrUnsigned gi gf (s ++ ['.']) radix int_nbits frac_nbits =
        fromStrUnsigned gi gf s radix int_nbits frac_nbits) := by
  refine ⟨fun s cbn radix h => parse_append_point s cbn radix h, ?_, ?_⟩
  · intro N gi gf s radix int_nbits frac_nbits h
    unfold fromStrSigned
    rw [parse_append_point s true radix h]
  · intro gi gf s radix int_nbits frac_nbits h
    unfold fromStrUnsigned
    rw [parse_append_point s false radix h]

/-- Witness for C9: the amended equivalence applied at concrete inputs. -/
theorem C9_point_append_amended_witness :
    parse (['1'] ++ ['.']) true 10 = parse ['1'] true 10
  ∧ fromStrUnsigned get_int8 get_frac8 (['7'] ++ ['.']) 10 4 4 =
      fromStrUnsigned get_int8 get_frac8 ['7'] 10 4 4 :=
  ⟨C9_point_append_amended.1 ['1'] true 10 (by decide),
   C9_point_append_amended.2.2 get_int8 get_frac8 ['7'] 10 4 4 (by decide)⟩

end FixedFromStr

